import Mathlib

/-!
Shallow embedding of `pynab/db.py` (windowed range query machinery, the
Unit-of-Work session scope, the schema's foreign-key delete actions) and of
the alembic migration `54672c4d904` (xref column width increase).

A table is modelled as a list of rows; for the windowed-query functions a
row is a pair `(column value, payload)` where the first component is the
value of the ordering column and the payload distinguishes rows that share
a column value.
-/

/-- A row of the scanned table: ordering-column value paired with an opaque
payload identifying the rest of the row. -/
abbrev Row := Int × Nat

/-- `ORDER BY column` on the projected column values: a sort of the list of
column values in ascending order. -/
def rankedVals (t : List Row) : List Int :=
  List.insertionSort (fun a b => a ≤ b) (t.map Prod.fst)

instance rowColLeDecidable : DecidableRel (fun a b : Row => a.1 ≤ b.1) :=
  fun a b => inferInstanceAs (Decidable (a.1 ≤ b.1))

instance rowColLeTotal : IsTotal Row (fun a b : Row => a.1 ≤ b.1) :=
  ⟨fun a b => Int.le_total a.1 b.1⟩

instance rowColLeTrans : IsTrans Row (fun a b : Row => a.1 ≤ b.1) :=
  ⟨fun _ _ _ h h' => le_trans h h'⟩

/-- `q.filter(...).order_by(column)`: rows sorted ascending by the ordering
column. -/
def colSort (rows : List Row) : List Row :=
  List.insertionSort (fun a b : Row => a.1 ≤ b.1) rows

/-- The ranking pass of `column_windows` (db.py:90-100): select the column
together with `row_number() OVER (ORDER BY column)` (1-based rank over all
rows, duplicates included), keep only ranks congruent to 1 modulo
`windowsize` when `windowsize > 1`, and return the column values. -/
def intervals (t : List Row) (windowsize : Int) : List Int :=
  let ranked := rankedVals t
  if 1 < windowsize then
    ((ranked.enum.filter (fun p => (((p.1 : Int) + 1) % windowsize == 1))).map Prod.snd)
  else
    ranked

/-- The `while intervals:` loop of `column_windows` (db.py:102-108): pop each
start, pair it with the next boundary when one remains, else with `none`. -/
def windowsOf : List Int → List (Int × Option Int)
  | [] => []
  | [a] => [(a, none)]
  | a :: b :: rest => (a, some b) :: windowsOf (b :: rest)

/-- `column_windows(session, column, windowsize)` (db.py:67-108), with each
yielded WHERE clause represented by its `(start, end)` boundary pair; the
clause itself is `int_for_range` applied to the pair. -/
def column_windows (t : List Row) (windowsize : Int) : List (Int × Option Int) :=
  windowsOf (intervals t windowsize)

/-- `int_for_range(start_id, end_id)` (db.py:81-88) applied to a column value
`v`.  Python's `if end_id:` is true only when `end_id` is neither `None` nor
the integer `0`, so a boundary value of `0` falls into the `else` branch. -/
def int_for_range (start_id : Int) (end_id : Option Int) (v : Int) : Bool :=
  match end_id with
  | some e =>
    if e ≠ 0 then decide (start_id ≤ v) && decide (v < e)
    else decide (start_id ≤ v)
  | none => decide (start_id ≤ v)

/-- `windowed_query(q, column, windowsize)` (db.py:111-118): for each window
of `column_windows`, re-issue the base query (the table filtered by the base
query's own predicate `p`) with the window's WHERE clause, ordered by the
column, and concatenate the results. -/
def windowed_query (t : List Row) (p : Row → Bool) (windowsize : Int) : List Row :=
  ((column_windows t windowsize).map
    (fun win => colSort ((t.filter p).filter (fun r => int_for_range win.1 win.2 r.1)))).flatten

/-- The unbounded equivalent of the base query: execute it once, ordered by
the column ascending. -/
def unboundedQuery (t : List Row) (p : Row → Bool) : List Row :=
  colSort (t.filter p)

/-- Every `w`-th element of a list, starting from the first (helper used to
reason about the rank filter `rownum % windowsize = 1`). -/
def everyNth (w : Nat) : List Int → List Int
  | [] => []
  | a :: rest => a :: everyNth w (rest.drop (w - 1))
termination_by l => l.length
decreasing_by
  simp only [List.length_drop, List.length_cons]
  omega

/-- The rank filter of `intervals` starting from 0-based index `n` (helper
for relating the filter formulation to `everyNth`). -/
def sel (w : Int) (n : Nat) (l : List Int) : List Int :=
  ((l.enumFrom n).filter (fun p => (((p.1 : Int) + 1) % w == 1))).map Prod.snd

/-- A foreign key's declared `ondelete` referential action. -/
inductive FKAction
  | cascade
  | setNull
  | noAction
  deriving DecidableEq

/-- Modelled from the spec: the relational storage engine (an external
collaborator per §1) applies a foreign key's referential action to one
referencing column when the referenced row with key `k` is deleted.  The
result is `none` when the referencing row is itself deleted (CASCADE on a
match), otherwise `some` of the column's new value. -/
def applyOnDelete (act : FKAction) (k : Int) (v : Option Int) : Option (Option Int) :=
  if v = some k then
    match act with
    | FKAction.cascade => none
    | FKAction.setNull => some none
    | FKAction.noAction => some v
  else some v

/-- A row of the `parts` table, restricted to its key and its reference to
the owning binary (db.py:267-286). -/
structure PartRow where
  id : Int
  binary_id : Option Int
  deriving DecidableEq

/-- db.py:282 — `binary_id = Column(Integer, ForeignKey('binaries.id',
ondelete='CASCADE'), index=True)`. -/
def Part.binary_id_ondelete : FKAction := FKAction.cascade

/-- Effect on the `parts` table of deleting the `binaries` row with key
`bid`: the engine applies the declared `ondelete` action of
`Part.binary_id` to each part (`Binary.parts` has `passive_deletes=True`,
db.py:254, so the ORM defers to the engine). -/
def deleteBinaryFromParts (parts : List PartRow) (bid : Int) : List PartRow :=
  parts.filterMap (fun p =>
    (applyOnDelete Part.binary_id_ondelete bid p.binary_id).map
      (fun v => { p with binary_id := v }))

/-- A row of the `releases` table, restricted to its key and its five
metablack link columns (db.py:121-174). -/
structure ReleaseRow where
  id : Int
  tvshow_metablack_id : Option Int
  movie_metablack_id : Option Int
  rar_metablack_id : Option Int
  nfo_metablack_id : Option Int
  sfv_metablack_id : Option Int
  deriving DecidableEq

/-- db.py:151 — `ForeignKey('metablack.id', ondelete='CASCADE')`. -/
def Release.tvshow_metablack_id_ondelete : FKAction := FKAction.cascade

/-- db.py:155 — `ForeignKey('metablack.id', ondelete='CASCADE')`. -/
def Release.movie_metablack_id_ondelete : FKAction := FKAction.cascade

/-- db.py:161 — `ForeignKey('metablack.id', ondelete='CASCADE')`. -/
def Release.rar_metablack_id_ondelete : FKAction := FKAction.cascade

/-- db.py:165 — `ForeignKey('metablack.id', ondelete='CASCADE')`. -/
def Release.nfo_metablack_id_ondelete : FKAction := FKAction.cascade

/-- db.py:169 — `ForeignKey('metablack.id', ondelete='CASCADE')`. -/
def Release.sfv_metablack_id_ondelete : FKAction := FKAction.cascade

/-- Effect on one `releases` row of deleting the `metablack` row with key
`mid`: the engine applies the declared `ondelete` action of each of the five
metablack link columns in turn; the row survives only if every action keeps
it. -/
def deleteMetaBlackRow (mid : Int) (r : ReleaseRow) : Option ReleaseRow :=
  (applyOnDelete Release.tvshow_metablack_id_ondelete mid r.tvshow_metablack_id).bind (fun v1 =>
  (applyOnDelete Release.movie_metablack_id_ondelete mid r.movie_metablack_id).bind (fun v2 =>
  (applyOnDelete Release.rar_metablack_id_ondelete mid r.rar_metablack_id).bind (fun v3 =>
  (applyOnDelete Release.nfo_metablack_id_ondelete mid r.nfo_metablack_id).bind (fun v4 =>
  (applyOnDelete Release.sfv_metablack_id_ondelete mid r.sfv_metablack_id).map (fun v5 =>
    { r with
      tvshow_metablack_id := v1
      movie_metablack_id := v2
      rar_metablack_id := v3
      nfo_metablack_id := v4
      sfv_metablack_id := v5 })))))

/-- Effect on the `releases` table of deleting the `metablack` row with key
`mid`. -/
def deleteMetaBlackFromReleases (rels : List ReleaseRow) (mid : Int) : List ReleaseRow :=
  rels.filterMap (deleteMetaBlackRow mid)

/-- An observable action `db_session` performs on its SQLAlchemy session. -/
inductive SessionEvent
  | commit
  | rollback
  deriving DecidableEq

/-- `db_session()` (db.py:54-63): `try: yield session; session.commit()
except: session.rollback(); raise`.  The caller's block outcome and the
outcome of the `commit()` call are inputs; the result is the list of session
actions performed, in order, paired with the outcome propagated to the
caller. -/
def db_session {ε : Type} (blockResult : Except ε Unit) (commitResult : Except ε Unit) :
    List SessionEvent × Except ε Unit :=
  match blockResult with
  | Except.ok _ =>
    match commitResult with
    | Except.ok _ => ([SessionEvent.commit], Except.ok ())
    | Except.error e => ([SessionEvent.commit, SessionEvent.rollback], Except.error e)
  | Except.error e => ([SessionEvent.rollback], Except.error e)

/-- The error a length-limited string column raises on overflow. -/
inductive StoreError
  | lengthConstraint
  deriving DecidableEq

/-- The widths of the two `xref` columns. -/
structure XrefWidths where
  parts_xref : Nat
  binaries_xref : Nat
  deriving DecidableEq

/-- The widths before the migration, per the migration's `existing_type`
(`sa.String(length=256)` for both columns, 54672c4d904:20,24). -/
def xref_widths_before : XrefWidths :=
  { parts_xref := 256, binaries_xref := 256 }

/-- `upgrade()` of alembic revision 54672c4d904: alter `parts.xref` and
`binaries.xref` to `VARCHAR(1024)`. -/
def upgrade (_s : XrefWidths) : XrefWidths :=
  { parts_xref := 1024, binaries_xref := 1024 }

/-- `downgrade()` of alembic revision 54672c4d904: alter both columns back
to `String(256)`. -/
def downgrade (_s : XrefWidths) : XrefWidths :=
  { parts_xref := 256, binaries_xref := 256 }

/-- Modelled from the spec: the storage engine persists a string into a
length-limited column exactly (round-trip) when it fits the declared width,
and raises a length-constraint error otherwise. -/
def storeVarchar (width : Nat) (s : String) : Except StoreError String :=
  if s.length ≤ width then Except.ok s else Except.error StoreError.lengthConstraint

/-- A 900-character string (the spec's §8 xref scenario). -/
def s900 : String := String.mk (List.replicate 900 'x')

/-! ## Helper lemmas about the window machinery -/

theorem windowsOf_map_fst (l : List Int) : (windowsOf l).map Prod.fst = l := by
  induction l with
  | nil => rfl
  | cons a rest ih =>
    cases rest with
    | nil => rfl
    | cons b r =>
      simp only [windowsOf, List.map_cons] at ih ⊢
      simpa using ih

theorem windowsOf_cons_shape (b : Int) (r : List Int) :
    ∃ q qs, windowsOf (b :: r) = q :: qs := by
  cases r with
  | nil => exact ⟨(b, none), [], rfl⟩
  | cons c r' => exact ⟨(b, some c), windowsOf (c :: r'), rfl⟩

theorem windowsOf_getLast_none (l : List Int) :
    ∀ p ∈ (windowsOf l).getLast?, p.2 = none := by
  induction l with
  | nil => simp [windowsOf]
  | cons a rest ih =>
    cases rest with
    | nil => simp [windowsOf]
    | cons b r =>
      intro p hp
      apply ih
      rw [windowsOf] at hp
      obtain ⟨q, qs, hq⟩ := windowsOf_cons_shape b r
      rw [hq] at hp ⊢
      rwa [List.getLast?_cons_cons] at hp

theorem windowsOf_some_mem {R : Int → Int → Prop} :
    ∀ {l : List Int}, List.Chain' R l → ∀ {s e : Int}, (s, some e) ∈ windowsOf l → R s e := by
  intro l
  induction l with
  | nil => intro _ s e h; simp [windowsOf] at h
  | cons a rest ih =>
    cases rest with
    | nil => intro _ s e h; simp [windowsOf] at h
    | cons b r =>
      intro hc s e h
      rw [List.chain'_cons] at hc
      rw [windowsOf, List.mem_cons] at h
      cases h with
      | inl h =>
        injection h with h1 h2
        injection h2 with h2
        subst h1; subst h2
        exact hc.1
      | inr h => exact ih hc.2 h

theorem everyNth_one (l : List Int) : everyNth 1 l = l := by
  induction l with
  | nil => rw [everyNth]
  | cons a rest ih => rw [everyNth]; simp [ih]

theorem emod_shift (w n c : Int) (hn : n % w = 0) : (n + c) % w = c % w := by
  obtain ⟨k, hk⟩ := Int.dvd_of_emod_eq_zero hn
  subst hk
  rw [Int.add_comm, Int.mul_comm, Int.add_mul_emod_self]

theorem sel_cons_keep {w : Int} {n : Nat} (h : ((n : Int) + 1) % w = 1) (a : Int) (l : List Int) :
    sel w n (a :: l) = a :: sel w (n + 1) l := by
  simp [sel, List.filter_cons, h]

theorem sel_cons_drop {w : Int} {n : Nat} (h : ((n : Int) + 1) % w ≠ 1) (a : Int) (l : List Int) :
    sel w n (a :: l) = sel w (n + 1) l := by
  simp [sel, List.filter_cons, h]

theorem sel_skip (w : Int) :
    ∀ (j n : Nat) (l : List Int),
      (∀ i : Nat, i < j → (((n + i : Nat) : Int) + 1) % w ≠ 1) →
      sel w n l = sel w (n + j) (l.drop j) := by
  intro j
  induction j with
  | zero => intro n l _; simp
  | succ j ih =>
    intro n l hskip
    cases l with
    | nil => simp [sel]
    | cons a rest =>
      have h0 : (((n : Int)) + 1) % w ≠ 1 := by
        have := hskip 0 (Nat.succ_pos j)
        simpa using this
      rw [sel_cons_drop h0, List.drop_succ_cons]
      have := ih (n + 1) rest (by
        intro i hi
        have := hskip (i + 1) (by omega)
        have harith : ((n : Int) + 1 + (i : Int)) = ((n + (i + 1) : Nat) : Int) := by
          push_cast; ring
        simpa [harith] using this)
      rw [this]
      congr 1
      omega

theorem sel_eq_everyNth (w : Int) (hw : 2 ≤ w) :
    ∀ (N : Nat) (l : List Int), l.length ≤ N → ∀ (n : Nat), ((n : Int)) % w = 0 →
      sel w n l = everyNth w.toNat l := by
  intro N
  induction N with
  | zero =>
    intro l hl n _
    have : l = [] := List.length_eq_zero.mp (Nat.le_zero.mp hl)
    subst this
    rw [everyNth]; rfl
  | succ N ih =>
    intro l hl n hn
    cases l with
    | nil => rw [everyNth]; rfl
    | cons a rest =>
      have h1w : (1 : Int) % w = 1 := Int.emod_eq_of_lt (by omega) (by omega)
      have hkeep : (((n : Int)) + 1) % w = 1 := by
        rw [emod_shift w _ _ hn, h1w]
      rw [sel_cons_keep hkeep, everyNth]
      congr 1
      have hwt : ((w.toNat : Int)) = w := Int.toNat_of_nonneg (by omega)
      have hskip : ∀ i : Nat, i < w.toNat - 1 → ((((n + 1) + i : Nat) : Int) + 1) % w ≠ 1 := by
        intro i hi
        have hcast : ((((n + 1) + i : Nat) : Int) + 1) = (n : Int) + ((i : Int) + 2) := by
          push_cast; ring
        rw [hcast, emod_shift w _ _ hn]
        have hi2 : (i : Int) + 2 ≤ w := by omega
        rcases lt_or_eq_of_le hi2 with hlt | heq
        · rw [Int.emod_eq_of_lt (by omega) hlt]; omega
        · rw [heq, Int.emod_self]; omega
      rw [sel_skip w (w.toNat - 1) (n + 1) rest hskip]
      apply ih
      · have : (rest.drop (w.toNat - 1)).length ≤ rest.length := by
          rw [List.length_drop]; omega
        have hr : rest.length ≤ N := by simpa using Nat.succ_le_succ_iff.mp hl
        omega
      · have hcast : (((n + 1 + (w.toNat - 1) : Nat)) : Int) = (n : Int) + w := by
          have : n + 1 + (w.toNat - 1) = n + w.toNat := by omega
          rw [this]; push_cast [hwt]; ring
        rw [hcast, emod_shift w _ _ hn, Int.emod_self]

theorem intervals_of_le_one {t : List Row} {w : Int} (h : ¬ 1 < w) :
    intervals t w = rankedVals t := by
  rw [intervals]
  simp [h]

theorem intervals_eq_everyNth (t : List Row) (w : Int) (hw : 0 < w) :
    intervals t w = everyNth w.toNat (rankedVals t) := by
  by_cases h : 1 < w
  · rw [intervals]
    simp only [if_pos h]
    have hsel : ((rankedVals t).enum.filter
        (fun p => (((p.1 : Int) + 1) % w == 1))).map Prod.snd = sel w 0 (rankedVals t) := rfl
    rw [hsel, sel_eq_everyNth w (by omega) (rankedVals t).length _ le_rfl 0 (by simp)]
  · have hw1 : w = 1 := by omega
    subst hw1
    rw [intervals_of_le_one h]
    have : (1 : Int).toNat = 1 := rfl
    rw [this, everyNth_one]

theorem rankedVals_sorted (t : List Row) : List.Pairwise (· ≤ ·) (rankedVals t) :=
  List.sorted_insertionSort _ _

theorem rankedVals_perm (t : List Row) : (rankedVals t).Perm (t.map Prod.fst) :=
  List.perm_insertionSort _ _

theorem rankedVals_strict (t : List Row) (hnd : (t.map Prod.fst).Nodup) :
    List.Pairwise (· < ·) (rankedVals t) := by
  have hs : List.Pairwise (· ≤ ·) (rankedVals t) := rankedVals_sorted t
  have hn : (rankedVals t).Nodup := (rankedVals_perm t).nodup_iff.mpr hnd
  exact (hs.and hn).imp (fun h => lt_of_le_of_ne h.1 h.2)

theorem everyNth_sublist (w : Nat) :
    ∀ (N : Nat) (l : List Int), l.length ≤ N → (everyNth w l).Sublist l := by
  intro N
  induction N with
  | zero =>
    intro l hl
    have : l = [] := List.length_eq_zero.mp (Nat.le_zero.mp hl)
    subst this
    rw [everyNth]
  | succ N ih =>
    intro l hl
    cases l with
    | nil => rw [everyNth]
    | cons a rest =>
      rw [everyNth]
      refine List.Sublist.cons₂ a ?_
      refine List.Sublist.trans (ih (rest.drop (w - 1)) ?_) (List.drop_sublist _ _)
      have : (rest.drop (w - 1)).length ≤ rest.length := by
        rw [List.length_drop]; omega
      have hr : rest.length ≤ N := by simpa using Nat.succ_le_succ_iff.mp hl
      omega

theorem chain_imp_of_mem_left {α : Type} {R S : α → α → Prop} :
    ∀ {L : List α}, (∀ a b, a ∈ L → R a b → S a b) → List.Chain' R L → List.Chain' S L := by
  intro L
  induction L with
  | nil => intro _ _; exact List.chain'_nil
  | cons a rest ih =>
    cases rest with
    | nil => intro _ _; simp
    | cons b r =>
      intro h hc
      rw [List.chain'_cons] at hc ⊢
      refine ⟨h a b (List.mem_cons_self _ _) hc.1, ih ?_ hc.2⟩
      intro x y hx
      exact h x y (List.mem_cons_of_mem _ hx)

theorem everyNth_chain_count (w : Nat) (hw : 1 ≤ w) :
    ∀ (N : Nat) (vs : List Int), vs.length ≤ N → List.Pairwise (· < ·) vs →
      List.Chain' (fun a b => vs.countP (fun v => decide (a ≤ v) && decide (v < b)) ≤ w)
        (everyNth w vs) := by
  intro N
  induction N with
  | zero =>
    intro vs hl _
    have : vs = [] := List.length_eq_zero.mp (Nat.le_zero.mp hl)
    subst this
    rw [everyNth]
    exact List.chain'_nil
  | succ N ih =>
    intro vs hlen hsort
    cases vs with
    | nil => rw [everyNth]; exact List.chain'_nil
    | cons a rest =>
      have hdw : (a :: rest).drop w = rest.drop (w - 1) := by
        conv_lhs => rw [show w = (w - 1) + 1 by omega]
        rw [List.drop_succ_cons]
      rw [everyNth, List.chain'_cons', ← hdw]
      have hrlen : rest.length ≤ N := by simpa using Nat.succ_le_succ_iff.mp hlen
      have hdlen : ((a :: rest).drop w).length ≤ N := by
        rw [hdw]
        have : (rest.drop (w - 1)).length ≤ rest.length := by
          rw [List.length_drop]; omega
        omega
      have hsplit : ∀ p : Int → Bool,
          (a :: rest).countP p
            = ((a :: rest).take w).countP p + ((a :: rest).drop w).countP p := by
        intro p
        rw [← List.countP_append, List.take_append_drop]
      have hcross : ∀ x ∈ (a :: rest).take w, ∀ y ∈ (a :: rest).drop w, x < y := by
        have h := hsort
        rw [← List.take_append_drop w (a :: rest), List.pairwise_append] at h
        exact h.2.2
      have hdropsorted : List.Pairwise (· < ·) ((a :: rest).drop w) :=
        List.Pairwise.sublist (List.drop_sublist _ _) hsort
      constructor
      · -- at most w rows lie between the first boundary and the next one
        intro c hc
        cases hdrop : (a :: rest).drop w with
        | nil => rw [hdrop] at hc; rw [everyNth] at hc; simp at hc
        | cons c' tail =>
          rw [hdrop] at hc
          rw [everyNth] at hc
          simp only [List.head?_cons, Option.mem_def, Option.some.injEq] at hc
          subst hc
          rw [hsplit]
          have h1 : ((a :: rest).take w).countP
              (fun v => decide (a ≤ v) && decide (v < c')) ≤ w := by
            calc ((a :: rest).take w).countP (fun v => decide (a ≤ v) && decide (v < c'))
                ≤ ((a :: rest).take w).length := List.countP_le_length _
              _ ≤ w := by rw [List.length_take]; omega
          have h2 : ((a :: rest).drop w).countP
              (fun v => decide (a ≤ v) && decide (v < c')) = 0 := by
            rw [List.countP_eq_zero]
            intro v hv
            rw [hdrop] at hv hdropsorted
            have hcv : c' ≤ v := by
              rcases List.mem_cons.mp hv with h | h
              · omega
              · have := (List.pairwise_cons.mp hdropsorted).1 v h
                omega
            simp only [Bool.and_eq_true, decide_eq_true_eq, not_and]
            intro _
            omega
          omega
      · -- the chain on the remaining boundaries
        refine chain_imp_of_mem_left ?_ (ih ((a :: rest).drop w) hdlen hdropsorted)
        intro x y hx hxy
        rw [hsplit]
        have h1 : ((a :: rest).take w).countP
            (fun v => decide (x ≤ v) && decide (v < y)) = 0 := by
          rw [List.countP_eq_zero]
          intro v hv
          have hxmem : x ∈ (a :: rest).drop w :=
            (everyNth_sublist w ((a :: rest).drop w).length _ le_rfl).subset hx
          have := hcross v hv x hxmem
          simp only [Bool.and_eq_true, decide_eq_true_eq, not_and]
          intro h
          omega
        omega

theorem deleteMetaBlackRow_eq (mid : Int) (r : ReleaseRow) :
    deleteMetaBlackRow mid r =
      if r.tvshow_metablack_id = some mid ∨ r.movie_metablack_id = some mid ∨
         r.rar_metablack_id = some mid ∨ r.nfo_metablack_id = some mid ∨
         r.sfv_metablack_id = some mid
      then none else some r := by
  rw [deleteMetaBlackRow]
  by_cases h1 : r.tvshow_metablack_id = some mid <;>
  by_cases h2 : r.movie_metablack_id = some mid <;>
  by_cases h3 : r.rar_metablack_id = some mid <;>
  by_cases h4 : r.nfo_metablack_id = some mid <;>
  by_cases h5 : r.sfv_metablack_id = some mid <;>
  simp [applyOnDelete, Release.tvshow_metablack_id_ondelete,
    Release.movie_metablack_id_ondelete, Release.rar_metablack_id_ondelete,
    Release.nfo_metablack_id_ondelete, Release.sfv_metablack_id_ondelete,
    h1, h2, h3, h4, h5]

/-! ## Claims -/

/-- C1: the claim states that for every finite table and non-negative
windowsize the multiset of rows yielded by `windowed_query` equals the
multiset of the unbounded query.  The code violates it: `int_for_range`
tests `if end_id:`, which treats a boundary value of `0` like the missing
end marker, so the window that should stop below `0` is unbounded and every
row with column value `≥ 0` is yielded twice.  On the table with column
values `[-2, -1, 0, 1]` and windowsize 2 the boundaries are `[-2, 0]` and
the query yields six rows instead of four. -/
theorem C1_windowed_query_zero_boundary_bug :
    windowed_query [((-2:Int),(0:Nat)),(-1,1),(0,2),(1,3)] (fun _ => true) 2
      = [(-2,0),(-1,1),(0,2),(1,3),(0,2),(1,3)] ∧
    ¬ (windowed_query [((-2:Int),(0:Nat)),(-1,1),(0,2),(1,3)] (fun _ => true) 2).Perm
        (unboundedQuery [((-2:Int),(0:Nat)),(-1,1),(0,2),(1,3)] (fun _ => true)) := by
  constructor
  · decide
  · decide

/-- C2 (counterexample): the claim that each interval between consecutive
boundaries of `column_windows` holds at most `windowsize` rows fails when
the column has duplicate values: on column values `[1, 1, 1, 2, 2]` with
windowsize 2 the boundaries are `[1, 1, 2]` and the interval `[1, 2)`
holds three rows. -/
theorem C2_window_bound_counterexample :
    ¬ (∀ s e : Int,
        (s, some e) ∈ column_windows [((1:Int),(0:Nat)),(1,1),(1,2),(2,3),(2,4)] 2 →
        ([((1:Int),(0:Nat)),(1,1),(1,2),(2,3),(2,4)] : List Row).countP
          (fun r => decide (s ≤ r.1) && decide (r.1 < e)) ≤ (2:Int).toNat) :=
  fun h => absurd (h 1 2 (by decide)) (by decide)

/-- C2 (amended): for every positive windowsize, provided the ordering
column's values are pairwise distinct, each interval `[s, e)` between
consecutive boundaries produced by `column_windows` holds at most
`windowsize` rows of the table, and the final window is unbounded above
(its end marker is `none`). -/
theorem C2_window_bound_amended (t : List Row) (w : Int) (hw : 0 < w)
    (hnd : (t.map Prod.fst).Nodup) :
    (∀ s e : Int, (s, some e) ∈ column_windows t w →
        t.countP (fun r => decide (s ≤ r.1) && decide (r.1 < e)) ≤ w.toNat) ∧
    (∀ p ∈ (column_windows t w).getLast?, p.2 = none) := by
  constructor
  · intro s e hmem
    rw [column_windows] at hmem
    have hchain := everyNth_chain_count w.toNat (by omega) (rankedVals t).length
      (rankedVals t) le_rfl (rankedVals_strict t hnd)
    rw [← intervals_eq_everyNth t w hw] at hchain
    have hR := windowsOf_some_mem hchain hmem
    have hperm := (rankedVals_perm t).countP_eq (fun v => decide (s ≤ v) && decide (v < e))
    rw [hperm, List.countP_map] at hR
    exact hR
  · exact windowsOf_getLast_none _

/-- C2 (witness): the amended theorem applied to the table with column
values `[1, 2, 3]` and windowsize 2, window `[1, 3)`. -/
theorem C2_window_bound_witness :
    ([((1:Int),(0:Nat)),(2,1),(3,2)] : List Row).countP
      (fun r => decide ((1:Int) ≤ r.1) && decide (r.1 < (3:Int))) ≤ (2:Int).toNat :=
  (C2_window_bound_amended [(1,0),(2,1),(3,2)] 2 (by decide) (by decide)).1 1 3 (by decide)

/-- C3 (counterexample): the boundary sequence is not strictly increasing
for every table: on column values `[1, 1, 1]` with windowsize 2 the
boundaries are `[1, 1]`. -/
theorem C3_boundaries_counterexample :
    ¬ List.Pairwise (· < ·)
        ((column_windows [((1:Int),(0:Nat)),(1,1),(1,2)] 2).map Prod.fst) := by decide

/-- C3 (amended): provided the ordering column's values are pairwise
distinct, the boundary values produced by `column_windows` are strictly
increasing, for every windowsize. -/
theorem C3_boundaries_amended (t : List Row) (w : Int) (hnd : (t.map Prod.fst).Nodup) :
    List.Pairwise (· < ·) ((column_windows t w).map Prod.fst) := by
  rw [column_windows, windowsOf_map_fst]
  by_cases hw : 0 < w
  · rw [intervals_eq_everyNth t w hw]
    exact List.Pairwise.sublist (everyNth_sublist _ _ _ le_rfl) (rankedVals_strict t hnd)
  · rw [intervals_of_le_one (by omega)]
    exact rankedVals_strict t hnd

/-- C3 (witness): the amended theorem applied to the table with column
values `[1, 2, 3]` and windowsize 2. -/
theorem C3_boundaries_witness :
    List.Pairwise (· < ·)
      ((column_windows [((1:Int),(0:Nat)),(2,1),(3,2)] 2).map Prod.fst) :=
  C3_boundaries_amended [(1,0),(2,1),(3,2)] 2 (by decide)

/-- C4: the claim states that `windowed_query` yields rows in non-decreasing
column order.  The same `if end_id:` slip as in C1 breaks it: on column
values `[-3, 0, 0, 5]` with windowsize 2 the boundaries are `[-3, 0]`, the
first window is unbounded because its end value `0` is falsy, and the output
column order is `[-3, 0, 0, 5, 0, 0, 5]`, which decreases after `5`. -/
theorem C4_windowed_query_order_bug :
    ¬ List.Pairwise (fun a b : Row => a.1 ≤ b.1)
        (windowed_query [((-3:Int),(0:Nat)),(0,1),(0,2),(5,3)] (fun _ => true) 2) := by decide

/-- C5 (counterexample): with windowsize 1 the number of windows equals the
number of rows, not the number of distinct column values: two rows sharing
the value `7` give two windows but one distinct value. -/
theorem C5_window_count_counterexample :
    ¬ ((column_windows [((7:Int),(0:Nat)),(7,1)] 1).length
        = (([((7:Int),(0:Nat)),(7,1)] : List Row).map Prod.fst).dedup.length) := by decide

/-- C5 (amended): for every non-empty table, `column_windows` with
windowsize 1 yields one window per row occurrence of the column value, i.e.
as many windows as the table has rows (which equals the number of distinct
values exactly when the column is duplicate-free). -/
theorem C5_window_count_amended (t : List Row) (_h : t ≠ []) :
    (column_windows t 1).length = t.length := by
  rw [column_windows, intervals_of_le_one (by omega)]
  have hw := congrArg List.length (windowsOf_map_fst (rankedVals t))
  rw [List.length_map] at hw
  rw [hw, (rankedVals_perm t).length_eq, List.length_map]

/-- C5 (witness): the amended theorem applied to a two-row table. -/
theorem C5_window_count_witness :
    (column_windows [((7:Int),(0:Nat)),(8,1)] 1).length
      = ([((7:Int),(0:Nat)),(8,1)] : List Row).length :=
  C5_window_count_amended [(7,0),(8,1)] (by decide)

/-- C6 (counterexample): the claim states deleting a Binary deletes nothing
in the Parts table.  `Part.binary_id` declares `ondelete='CASCADE'`
(db.py:282), so the engine deletes every Part referencing the deleted
Binary: a one-part table referencing binary 7 becomes empty. -/
theorem C6_binary_delete_counterexample :
    deleteBinaryFromParts [{ id := 1, binary_id := some 7 }] 7 = [] ∧
    ¬ (({ id := 1, binary_id := some 7 } : PartRow) ∈
        deleteBinaryFromParts [{ id := 1, binary_id := some 7 }] 7) := by
  constructor
  · decide
  · decide

/-- C6 (amended): deleting a Binary cascade-deletes exactly the Part rows
that referenced it: every Part referencing the deleted Binary is removed,
and every other Part remains present unchanged. -/
theorem C6_binary_delete_amended (parts : List PartRow) (bid : Int) :
    (∀ p ∈ parts, p.binary_id = some bid → p ∉ deleteBinaryFromParts parts bid) ∧
    (∀ p ∈ parts, p.binary_id ≠ some bid → p ∈ deleteBinaryFromParts parts bid) := by
  constructor
  · intro p hp heq hmem
    rw [deleteBinaryFromParts, List.mem_filterMap] at hmem
    obtain ⟨q, hq, hfq⟩ := hmem
    by_cases h : q.binary_id = some bid
    · simp [applyOnDelete, Part.binary_id_ondelete, h] at hfq
    · simp [applyOnDelete, Part.binary_id_ondelete, h] at hfq
      subst hfq
      exact h heq
  · intro p hp hne
    rw [deleteBinaryFromParts, List.mem_filterMap]
    refine ⟨p, hp, ?_⟩
    simp [applyOnDelete, Part.binary_id_ondelete, hne]

/-- C6 (witness): the amended theorem applied to a two-part table: the part
referencing another binary survives the delete. -/
theorem C6_binary_delete_witness :
    ({ id := 2, binary_id := some 3 } : PartRow) ∈
      deleteBinaryFromParts
        [{ id := 1, binary_id := some 7 }, { id := 2, binary_id := some 3 }] 7 :=
  (C6_binary_delete_amended
      [{ id := 1, binary_id := some 7 }, { id := 2, binary_id := some 3 }] 7).2
    { id := 2, binary_id := some 3 } (by decide) (by decide)

/-- C7 (counterexample): the claim states deleting a MetaBlack row clears
the Release's link column while keeping the Release row.  All five link
columns declare `ondelete='CASCADE'` (db.py:151,155,161,165,169), so the
engine deletes the Release row itself: a release whose tvshow slot points
to metablack 5 disappears entirely, and in particular is not present with
the link cleared. -/
theorem C7_metablack_delete_counterexample :
    deleteMetaBlackFromReleases
      [{ id := 1, tvshow_metablack_id := some 5, movie_metablack_id := none,
         rar_metablack_id := none, nfo_metablack_id := none, sfv_metablack_id := none }] 5
      = [] ∧
    ¬ (({ id := 1, tvshow_metablack_id := none, movie_metablack_id := none,
          rar_metablack_id := none, nfo_metablack_id := none,
          sfv_metablack_id := none } : ReleaseRow) ∈
        deleteMetaBlackFromReleases
          [{ id := 1, tvshow_metablack_id := some 5, movie_metablack_id := none,
             rar_metablack_id := none, nfo_metablack_id := none,
             sfv_metablack_id := none }] 5) := by
  constructor
  · decide
  · decide

/-- C7 (amended): deleting a MetaBlack row cascade-deletes every Release row
whose metablack link columns reference it (in any of the five slots), and
every Release referencing it in no slot remains present unchanged. -/
theorem C7_metablack_delete_amended (rels : List ReleaseRow) (mid : Int) :
    (∀ r ∈ rels,
        (r.tvshow_metablack_id = some mid ∨ r.movie_metablack_id = some mid ∨
         r.rar_metablack_id = some mid ∨ r.nfo_metablack_id = some mid ∨
         r.sfv_metablack_id = some mid) →
        r ∉ deleteMetaBlackFromReleases rels mid) ∧
    (∀ r ∈ rels,
        ¬ (r.tvshow_metablack_id = some mid ∨ r.movie_metablack_id = some mid ∨
           r.rar_metablack_id = some mid ∨ r.nfo_metablack_id = some mid ∨
           r.sfv_metablack_id = some mid) →
        r ∈ deleteMetaBlackFromReleases rels mid) := by
  constructor
  · intro r hr href hmem
    rw [deleteMetaBlackFromReleases, List.mem_filterMap] at hmem
    obtain ⟨q, hq, hfq⟩ := hmem
    rw [deleteMetaBlackRow_eq] at hfq
    by_cases h : q.tvshow_metablack_id = some mid ∨ q.movie_metablack_id = some mid ∨
        q.rar_metablack_id = some mid ∨ q.nfo_metablack_id = some mid ∨
        q.sfv_metablack_id = some mid
    · rw [if_pos h] at hfq; exact Option.noConfusion hfq
    · rw [if_neg h] at hfq
      have : q = r := Option.some.inj hfq
      subst this
      exact h href
  · intro r hr href
    rw [deleteMetaBlackFromReleases, List.mem_filterMap]
    refine ⟨r, hr, ?_⟩
    rw [deleteMetaBlackRow_eq, if_neg href]

/-- C7 (witness): the amended theorem applied to a two-release table: the
release with no link to the deleted MetaBlack survives. -/
theorem C7_metablack_delete_witness :
    ({ id := 2, tvshow_metablack_id := none, movie_metablack_id := some 9,
       rar_metablack_id := none, nfo_metablack_id := none,
       sfv_metablack_id := none } : ReleaseRow) ∈
      deleteMetaBlackFromReleases
        [{ id := 1, tvshow_metablack_id := some 5, movie_metablack_id := none,
           rar_metablack_id := none, nfo_metablack_id := none, sfv_metablack_id := none },
         { id := 2, tvshow_metablack_id := none, movie_metablack_id := some 9,
           rar_metablack_id := none, nfo_metablack_id := none,
           sfv_metablack_id := none }] 5 :=
  (C7_metablack_delete_amended
      [{ id := 1, tvshow_metablack_id := some 5, movie_metablack_id := none,
         rar_metablack_id := none, nfo_metablack_id := none, sfv_metablack_id := none },
       { id := 2, tvshow_metablack_id := none, movie_metablack_id := some 9,
         rar_metablack_id := none, nfo_metablack_id := none,
         sfv_metablack_id := none }] 5).2
    { id := 2, tvshow_metablack_id := none, movie_metablack_id := some 9,
      rar_metablack_id := none, nfo_metablack_id := none, sfv_metablack_id := none }
    (by decide) (by decide)

/-- C8: `db_session` commits exactly when the caller's block completes
without raising; when the block raises, the session is rolled back and the
very same exception is propagated unchanged (never caught or suppressed). -/
theorem C8_db_session_scope {ε : Type} (b cr : Except ε Unit) :
    (SessionEvent.commit ∈ (db_session b cr).1 ↔ b = Except.ok ()) ∧
    (∀ e : ε, b = Except.error e →
        db_session b cr = ([SessionEvent.rollback], Except.error e)) := by
  cases b with
  | ok u => cases u; cases cr <;> simp [db_session]
  | error e => cases cr <;> simp [db_session]

/-- C8 (witness): the theorem applied to a failing block carrying error 7. -/
theorem C8_db_session_scope_witness :
    @db_session Nat (Except.error 7) (Except.ok ())
      = ([SessionEvent.rollback], Except.error 7) :=
  (C8_db_session_scope (Except.error 7) (Except.ok ())).2 7 rfl

/-- C9: after the xref migration's `upgrade` (256 → 1024) both xref columns
accept and round-trip a 900-character string exactly; before the migration,
at width 256, storing it fails with a length-constraint error. -/
theorem C9_xref_migration :
    storeVarchar ((upgrade xref_widths_before).parts_xref) s900 = Except.ok s900 ∧
    storeVarchar ((upgrade xref_widths_before).binaries_xref) s900 = Except.ok s900 ∧
    storeVarchar xref_widths_before.parts_xref s900
      = Except.error StoreError.lengthConstraint ∧
    storeVarchar xref_widths_before.binaries_xref s900
      = Except.error StoreError.lengthConstraint := by
  have hlen : s900.length = 900 := by
    rw [s900, String.length_mk, List.length_replicate]
  refine ⟨?_, ?_, ?_, ?_⟩ <;>
    rw [storeVarchar] <;>
    simp [hlen, upgrade, xref_widths_before]

/-- C10: `column_windows` applies the rank filter only when
`windowsize > 1`; for every `windowsize ≤ 1` (including 0 and negatives)
the boundary list is the full ranked column-value list — one boundary per
row occurrence — and the window sequence equals that of windowsize 1. -/
theorem C10_rank_filter_threshold (t : List Row) (w : Int) (h : w ≤ 1) :
    intervals t w = rankedVals t ∧ column_windows t w = column_windows t 1 ∧
    (intervals t w).length = t.length := by
  have h1 : intervals t w = rankedVals t := intervals_of_le_one (by omega)
  have h2 : intervals t 1 = rankedVals t := intervals_of_le_one (by omega)
  refine ⟨h1, ?_, ?_⟩
  · rw [column_windows, column_windows, h1, h2]
  · rw [h1, (rankedVals_perm t).length_eq, List.length_map]

/-- C10 (witness): the theorem applied to a one-row table at windowsize 0. -/
theorem C10_rank_filter_threshold_witness :
    intervals [((5:Int),(0:Nat))] 0 = rankedVals [((5:Int),(0:Nat))] ∧
    column_windows [((5:Int),(0:Nat))] 0 = column_windows [((5:Int),(0:Nat))] 1 ∧
    (intervals [((5:Int),(0:Nat))] 0).length = ([((5:Int),(0:Nat))] : List Row).length :=
  C10_rank_filter_threshold [(5,0)] 0 (by decide)
